import Mathlib

/-!
Verification development for the chatterino2 emoji engine
(`src/providers/emoji/Emojis.cpp`).

Strings are modelled as lists of UTF-16 code units (`Str := List Nat`),
matching `QString`.  Machine integers are `Nat`/`Int` with explicit bounds
where they matter.  Fallible code (the `std::array::at` bounds-checked
access, which throws) is modelled with `Except`.
-/

namespace Emojis

/-- A UTF-16 code unit (`QChar`). -/
abbrev U16 := Nat

/-- A `QString`: a sequence of UTF-16 code units. -/
abbrev Str := List Nat

/-- Convert an ASCII/BMP Lean string literal into the `Str` model.  Used only
to write down tables and test inputs; all literals in this file are ASCII. -/
def strU (s : String) : Str := s.data.map (fun c => c.toNat)

/-- `QChar::isLowSurrogate`: unit in `0xDC00 ..= 0xDFFF`. -/
def isLowSurrogate (c : U16) : Bool := 0xDC00 ≤ c && c ≤ 0xDFFF

/-- `QChar::isHighSurrogate`: unit in `0xD800 ..= 0xDBFF`. -/
def isHighSurrogate (c : U16) : Bool := 0xD800 ≤ c && c ≤ 0xDBFF

/-- ASCII lowercasing of one unit.  `QString::toLower` is Unicode-aware; for
the inputs this development handles (hex codes, shortcodes, URLs) the ASCII
fragment is the relevant one. -/
def lowerChar (c : U16) : U16 := if 0x41 ≤ c && c ≤ 0x5A then c + 0x20 else c

/-- `QString::toLower` on the ASCII fragment. -/
def toLowerU (s : Str) : Str := s.map lowerChar

/-- Is the unit an ASCII hex digit? -/
def isHexDigit (c : U16) : Bool :=
  (0x30 ≤ c && c ≤ 0x39) || (0x61 ≤ c && c ≤ 0x66) || (0x41 ≤ c && c ≤ 0x46)

/-- Numeric value of a hex digit unit. -/
def hexVal (c : U16) : Nat :=
  if 0x30 ≤ c && c ≤ 0x39 then c - 0x30
  else if 0x61 ≤ c && c ≤ 0x66 then c - 0x61 + 10
  else if 0x41 ≤ c && c ≤ 0x46 then c - 0x41 + 10
  else 0

/-- `QString::toUInt(nullptr, 16)`: the whole string must be a valid hex
numeral fitting `uint`; on any failure the result is 0. -/
def hexToNat (s : Str) : Nat :=
  if s ≠ [] && s.all isHexDigit then
    let v := s.foldl (fun acc c => acc * 16 + hexVal c) 0
    if v < 2 ^ 32 then v else 0
  else 0

/-- `QString::split(sep)` with Qt's default `KeepEmptyParts`: always returns
at least one part; an empty input yields one empty part. -/
def splitOn (sep : U16) : Str → List Str
  | [] => [[]]
  | c :: rest =>
    let r := splitOn sep rest
    if c == sep then [] :: r else (c :: r.headD []) :: r.tail

/-- Encode one UCS-4 code point as UTF-16 units, Qt semantics: surrogate
code points and values above U+10FFFF become U+FFFD. -/
def ucs4Unit (cp : Nat) : List U16 :=
  if cp < 0x10000 then
    if 0xD800 ≤ cp && cp ≤ 0xDFFF then [0xFFFD] else [cp]
  else if cp ≤ 0x10FFFF then
    [0xD800 + (cp - 0x10000) / 0x400, 0xDC00 + (cp - 0x10000) % 0x400]
  else [0xFFFD]

/-- `QString::fromUcs4(data, n)`. -/
def fromUcs4 (cps : List Nat) : Str := cps.flatMap ucs4Unit

/-- Lookup in an association list with `Str` keys (a `QMap<QString, ·>` /
`std::map<QString, ·>` observed only through `find`). -/
def lookupStr {α : Type} (m : List (Str × α)) (k : Str) : Option α :=
  (m.find? (fun p => p.1 == k)).map (·.2)

/-- One emoji or emoji variant (`EmojiData`). -/
structure EmojiData where
  shortCodes : List Str
  nonQualifiedCode : Str
  unifiedCode : Str
  capabilities : List Str
  value : Str
  deriving DecidableEq, Repr, Inhabited

/-- One raw dataset record's scalar fields (`short_names`, the two code
fields — `none` models an absent or non-string JSON member, on which
`rj::getSafe` leaves the output untouched — and the four image flags). -/
structure RawEmoji where
  short_names : List Str
  non_qualified : Option Str
  unified : Option Str
  has_img_apple : Bool
  has_img_google : Bool
  has_img_twitter : Bool
  has_img_facebook : Bool
  deriving DecidableEq, Repr, Inhabited

/-- One top-level dataset entry: the record itself plus its optional
`skin_variations` object (tone key → nested record). -/
structure RawEntry where
  emoji : RawEmoji
  skin_variations : List (Str × RawEmoji)
  deriving DecidableEq, Repr, Inhabited

/-- The fixed skin-tone table (`toneNames` in the anonymous namespace). -/
def toneNames : List (Str × Str) :=
  [(strU "1F3FB", strU "tone1"), (strU "1F3FC", strU "tone2"),
   (strU "1F3FD", strU "tone3"), (strU "1F3FE", strU "tone4"),
   (strU "1F3FF", strU "tone5")]

/-- `getToneNames`: split the tone key on `-`, look each part up in
`toneNames`, drop parts that are not found (diagnostic only), and join the
surviving labels with `-`. -/
def getToneNames (tones : Str) : Str :=
  let toneParts := splitOn 0x2D tones
  let results := toneParts.foldl
    (fun acc tonePart =>
      match lookupStr toneNames tonePart with
      | none => acc
      | some name => acc ++ [name])
    []
  List.intercalate (strU "-") results

/-- The code parts `parseEmoji` decodes: lowercase the preferred code field
(`non_qualified` when non-empty, else `unified`) and split it on `-`. -/
def chosenParts (unparsedEmoji : RawEmoji) : List Str :=
  if unparsedEmoji.non_qualified.getD [] ≠ [] then
    splitOn 0x2D (toLowerU (unparsedEmoji.non_qualified.getD []))
  else
    splitOn 0x2D (toLowerU (unparsedEmoji.unified.getD []))

/-- `parseEmoji`.  The C++ fills a `std::array<uint32_t, 9>` through
bounds-checked `at`, so a code field that splits into more than 9 parts
throws `std::out_of_range`; that exception is the `Except.error` case and
it propagates (there is no handler).  The `< 1` early-return branch is
kept verbatim from the source. -/
def parseEmoji (unparsedEmoji : RawEmoji) (shortCode : Str := []) :
    Except String EmojiData :=
  let shortCodes :=
    if shortCode ≠ [] then [shortCode] else unparsedEmoji.short_names
  let nonQualifiedCode := unparsedEmoji.non_qualified.getD []
  let unifiedCode := unparsedEmoji.unified.getD []
  let capabilities :=
    (if unparsedEmoji.has_img_apple then [strU "Apple"] else []) ++
    (if unparsedEmoji.has_img_google then [strU "Google"] else []) ++
    (if unparsedEmoji.has_img_twitter then [strU "Twitter"] else []) ++
    (if unparsedEmoji.has_img_facebook then [strU "Facebook"] else [])
  let unicodeCharacters := chosenParts unparsedEmoji
  if unicodeCharacters.length < 1 then
    .ok { shortCodes, nonQualifiedCode, unifiedCode, capabilities,
          value := [] }
  else if unicodeCharacters.length > 9 then
    .error "std::out_of_range: array::at"
  else
    .ok { shortCodes, nonQualifiedCode, unifiedCode, capabilities,
          value := fromUcs4 (unicodeCharacters.map hexToNat) }

/-- Insert-or-replace in a `QMap` keyed by `Str` (`QMap::insert` replaces
the value of an existing key). -/
def mapInsert {α : Type} (m : List (Str × α)) (k : Str) (v : α) :
    List (Str × α) :=
  if m.any (fun p => p.1 == k) then
    m.map (fun p => if p.1 == k then (k, v) else p)
  else m ++ [(k, v)]

/-- The per-first-unit candidate index (`emojiFirstByte_`). -/
abbrev FirstByteIndex := List (U16 × List EmojiData)

/-- `emojiFirstByte_[c]` lookup (`QMap::find`). -/
def bucketFind (idx : FirstByteIndex) (c : U16) : Option (List EmojiData) :=
  (idx.find? (fun p => p.1 == c)).map (·.2)

/-- `emojiFirstByte_[c].append(e)`: `operator[]` default-constructs a
missing bucket, then the record is appended. -/
def bucketAppend (idx : FirstByteIndex) (c : U16) (e : EmojiData) :
    FirstByteIndex :=
  if idx.any (fun p => p.1 == c) then
    idx.map (fun p => if p.1 == c then (p.1, p.2 ++ [e]) else p)
  else idx ++ [(c, [e])]

/-- The mutable state `loadEmojis` builds: the shortcode map
(`emojiShortCodeToEmoji_`), the flat shortcode list (`shortCodes`), the
first-unit index (`emojiFirstByte_`) and the canonical-code map
(`emojis`). -/
structure LoadState where
  shortCodeMap : List (Str × EmojiData)
  shortCodes : List Str
  firstByte : FirstByteIndex
  emojis : List (Str × EmojiData)
  deriving DecidableEq, Repr, Inhabited

/-- Register a base record: every shortcode goes into the map and the flat
list; the record is appended to the bucket of its first unit
(`value.at(0)`) and inserted under its unified code. -/
def registerBase (st : LoadState) (e : EmojiData) : LoadState :=
  let st1 := e.shortCodes.foldl
    (fun s sc =>
      { s with shortCodeMap := mapInsert s.shortCodeMap sc e,
               shortCodes := s.shortCodes ++ [sc] }) st
  { st1 with firstByte := bucketAppend st1.firstByte (e.value.headD 0) e,
             emojis := mapInsert st1.emojis e.unifiedCode e }

/-- Register a variant record: only `shortCodes[0]` goes into the map and
the flat list; the rest is as for a base record. -/
def registerVariant (st : LoadState) (e : EmojiData) : LoadState :=
  let sc := e.shortCodes.headD []
  { st with
    shortCodeMap := mapInsert st.shortCodeMap sc e,
    shortCodes := st.shortCodes ++ [sc],
    firstByte := bucketAppend st.firstByte (e.value.headD 0) e,
    emojis := mapInsert st.emojis e.unifiedCode e }

/-- Process the `skin_variations` of one entry.  An error from
`parseEmoji` propagates. -/
def loadVariations (base : EmojiData) (st : LoadState) :
    List (Str × RawEmoji) → Except String LoadState
  | [] => .ok st
  | (toneKey, variation) :: rest =>
    let toneName := getToneNames toneKey
    match parseEmoji variation
        (base.shortCodes.headD [] ++ strU "_" ++ toneName) with
    | .error msg => .error msg
    | .ok ve => loadVariations base (registerVariant st ve) rest

/-- `Emojis::loadEmojis`, after the JSON has parsed: fold every entry into
the state.  A thrown `std::out_of_range` from `parseEmoji` propagates — the
load has no handler for it. -/
def loadEmojisFrom (st : LoadState) : List RawEntry → Except String LoadState
  | [] => .ok st
  | entry :: rest =>
    match parseEmoji entry.emoji with
    | .error msg => .error msg
    | .ok e =>
      match loadVariations e (registerBase st e) entry.skin_variations with
      | .error msg => .error msg
      | .ok st2 => loadEmojisFrom st2 rest

/-- `Emojis::loadEmojis` on an already-parsed dataset. -/
def loadEmojis (entries : List RawEntry) : Except String LoadState :=
  loadEmojisFrom { shortCodeMap := [], shortCodes := [], firstByte := [],
                   emojis := [] } entries

/-- Extract the `.ok` state (used only to phrase closed statements). -/
def loadStateD : Except String LoadState → LoadState
  | .ok st => st
  | .error _ => default

/-- The comparator of `Emojis::sortEmojis` as a sort order: `a` may precede
`b` when `b`'s glyph is no longer than `a`'s (descending glyph length;
equal lengths keep insertion order under a stable sort). -/
def lenGE (a b : EmojiData) : Prop := b.value.length ≤ a.value.length

instance : DecidableRel lenGE := fun _ _ => Nat.decLe _ _

instance : IsTotal EmojiData lenGE :=
  ⟨fun a b => Nat.le_total b.value.length a.value.length⟩

instance : IsTrans EmojiData lenGE :=
  ⟨fun _ _ _ h1 h2 => Nat.le_trans h2 h1⟩

/-- UTF-16 code-unit lexicographic order on `Str` (`QString::operator<`),
as a Bool. -/
def strLt : Str → Str → Bool
  | [], [] => false
  | [], _ :: _ => true
  | _ :: _, [] => false
  | a :: as_, b :: bs => if a < b then true else if b < a then false
      else strLt as_ bs

/-- The comparator of the shortcode-list sort as a (non-strict) order:
`a` may precede `b` when `b < a` does not hold. -/
def strLe (a b : Str) : Prop := strLt b a = false

instance : DecidableRel strLe := fun a b =>
  instDecidableEqBool (strLt b a) false

/-- `Emojis::sortEmojis`: stable-sort every first-unit bucket by descending
glyph length, and stable-sort the flat shortcode list ascending. -/
def sortEmojis (st : LoadState) : LoadState :=
  { st with
    firstByte := st.firstByte.map
      (fun p => (p.1, List.insertionSort lenGE p.2)),
    shortCodes := List.insertionSort strLe st.shortCodes }

/-- The candidate test of the inner loop of `Emojis::parse`: the glyph's
extra characters must fit in the remaining text, and every unit after the
first must equal the corresponding text unit. -/
def emojiMatches (text : Str) (i : Nat) (e : EmojiData) : Bool :=
  if e.value.length - 1 > text.length - i - 1 then false
  else (List.range' 1 (e.value.length - 1)).all
    (fun j => text.getD (i + j) 0 == e.value.getD j 0)

/-- The inner candidate loop of `Emojis::parse`: first full match wins. -/
def findMatch (text : Str) (i : Nat) (candidates : List EmojiData) :
    Option EmojiData :=
  candidates.find? (emojiMatches text i)

/-- The outer loop of `Emojis::parse`, reporting each match as a pair of
its start position and its record.  `fuel` is the loop bound: every
iteration advances `i` by at least one, so `text.length` iterations always
suffice and the `fuel = 0` branch coincides with loop exit. -/
def parseMatchesLoop (idx : FirstByteIndex) (text : Str) :
    Nat → Nat → List (Nat × EmojiData)
  | 0, _ => []
  | fuel + 1, i =>
    if i < text.length then
      let character := text.getD i 0
      if isLowSurrogate character then parseMatchesLoop idx text fuel (i + 1)
      else
        match bucketFind idx character with
        | none => parseMatchesLoop idx text fuel (i + 1)
        | some possibleEmojis =>
          match findMatch text i possibleEmojis with
          | none => parseMatchesLoop idx text fuel (i + 1)
          | some matchedEmoji =>
            if matchedEmoji.value.length == 0 then
              parseMatchesLoop idx text fuel (i + 1)
            else
              (i, matchedEmoji) ::
                parseMatchesLoop idx text fuel (i + matchedEmoji.value.length)
    else []

/-- All matches of one scan. -/
def parseMatches (idx : FirstByteIndex) (text : Str) :
    List (Nat × EmojiData) :=
  parseMatchesLoop idx text text.length 0

/-- One output segment of `Emojis::parse`
(`boost::variant<EmotePtr, QString>`; the emote is identified by its
record). -/
inductive Segment where
  | emote (e : EmojiData)
  | lit (s : Str)
  deriving DecidableEq, Repr

/-- The emission logic of `Emojis::parse`: between `lastParsedEmojiEndIndex`
and each match start, flush the pending literal (`text.mid`), then the
emote; at the end flush the trailing literal if any. -/
def render (text : Str) (lastEnd : Nat) :
    List (Nat × EmojiData) → List Segment
  | [] =>
    if lastEnd < text.length then [Segment.lit (text.drop lastEnd)] else []
  | (i, r) :: ms =>
    (if lastEnd < i then [Segment.lit ((text.drop lastEnd).take (i - lastEnd))]
     else []) ++
    Segment.emote r :: render text (i + r.value.length) ms

/-- `Emojis::parse`. -/
def parse (idx : FirstByteIndex) (text : Str) : List Segment :=
  render text 0 (parseMatches idx text)

/-- Concatenate a segment list back into text, an emote standing for its
record's glyph. -/
def segsText (segs : List Segment) : Str :=
  segs.flatMap (fun s => match s with
    | Segment.emote e => e.value
    | Segment.lit l => l)

/-- Well-formedness of the first-unit index: every bucket's records have a
non-empty glyph whose first unit is the bucket key — exactly what
`loadEmojis` establishes by inserting each record under `value.at(0)`. -/
def WFIndex (idx : FirstByteIndex) : Prop :=
  ∀ p ∈ idx, ∀ e ∈ p.2, e.value ≠ [] ∧ e.value.headD 0 = p.1

/-- The matches of one scan are ordered and in bounds, and each match's
span of the text equals the record's glyph. -/
def MatchChain (text : Str) : Nat → List (Nat × EmojiData) → Prop
  | _, [] => True
  | bound, (p, r) :: ms =>
    bound ≤ p ∧ r.value ≠ [] ∧ p + r.value.length ≤ text.length ∧
    (text.drop p).take r.value.length = r.value ∧
    MatchChain text (p + r.value.length) ms

/-- A character the shortcode token grammar accepts between the colons.
Modelled from the spec: the pattern of `findShortCodesRegex_` (declared in
`Emojis.hpp`, which is not part of the sources here) matches `:` + one or
more of letters, digits, underscore, plus, minus + `:`. -/
def isShortCodeChar (c : U16) : Bool :=
  (0x41 ≤ c && c ≤ 0x5A) || (0x61 ≤ c && c ≤ 0x7A) ||
  (0x30 ≤ c && c ≤ 0x39) || c == 0x5F || c == 0x2B || c == 0x2D

/-- Length of the maximal run of shortcode characters at the front. -/
def scRunList : Str → Nat
  | [] => 0
  | c :: rest => if isShortCodeChar c then scRunList rest + 1 else 0

/-- Modelled from the spec: the non-overlapping, left-to-right matches of
the shortcode token pattern, as (start, length) pairs.  A token starts with
`:` (0x3A), has a non-empty run of shortcode characters, and ends with the
next `:`; after a match the search resumes past it, otherwise it advances
one position.  `fuel` bounds the loop; `text.length` always suffices. -/
def findTokensLoop (text : Str) : Nat → Nat → List (Nat × Nat)
  | 0, _ => []
  | fuel + 1, i =>
    if i < text.length then
      let run := scRunList (text.drop (i + 1))
      if text.getD i 0 == 0x3A && run ≥ 1 &&
          text.getD (i + 1 + run) 0 == 0x3A then
        (i, run + 2) :: findTokensLoop text fuel (i + run + 2)
      else findTokensLoop text fuel (i + 1)
    else []

/-- All shortcode token matches of a text. -/
def findTokens (text : Str) : List (Nat × Nat) :=
  findTokensLoop text text.length 0

/-- `capturedString.toLower().mid(1, capturedString.size() - 2)`: the
lowercased inner text of a token at `(start, len)` of `text`. -/
def tokenInner (text : Str) (tok : Nat × Nat) : Str :=
  ((toLowerU ((text.drop tok.1).take tok.2)).drop 1).take (tok.2 - 2)

/-- `QString::replace(pos, len, after)`. -/
def strReplace (s : Str) (pos len : Nat) (repl : Str) : Str :=
  s.take pos ++ repl ++ s.drop (pos + len)

/-- One step of the fold in `Emojis::replaceShortCodes`: look the token's
lowercased inner text up; on a hit, replace at the original start shifted
by the running `offset` (an `int32_t`: it may be negative) and update the
offset by the length difference. -/
def replaceStep (m : List (Str × EmojiData)) (text : Str)
    (acc : Str × Int) (tok : Nat × Nat) : Str × Int :=
  match lookupStr m (tokenInner text tok) with
  | none => acc
  | some emojiData =>
    (strReplace acc.1 (acc.2 + (tok.1 : Int)).toNat tok.2 emojiData.value,
     acc.2 + (emojiData.value.length : Int) - (tok.2 : Int))

/-- `Emojis::replaceShortCodes`. -/
def replaceShortCodes (m : List (Str × EmojiData)) (text : Str) : Str :=
  ((findTokens text).foldl (replaceStep m text) (text, 0)).1

/-- Modelled from the spec (§4.5), for comparison with
`replaceShortCodes`: walk the token matches over the original text, keep
the text between tokens, and substitute each token whose lowercased inner
text is a known shortcode by its glyph, leaving unknown tokens untouched. -/
def specSubstituteGo (m : List (Str × EmojiData)) (text : Str) :
    Nat → List (Nat × Nat) → Str
  | lastEnd, [] => text.drop lastEnd
  | lastEnd, tok :: toks =>
    (text.drop lastEnd).take (tok.1 - lastEnd) ++
    (match lookupStr m (tokenInner text tok) with
     | some e => e.value
     | none => (text.drop tok.1).take tok.2) ++
    specSubstituteGo m text (tok.1 + tok.2) toks

/-- Modelled from the spec: the whole substitution, spec phrasing. -/
def specSubstitute (m : List (Str × EmojiData)) (text : Str) : Str :=
  specSubstituteGo m text 0 (findTokens text)

/-- The token matches of a text are spaced out in order: each starts no
earlier than the running bound, is at least 3 units long, ends within the
text, and the next token starts after it. -/
def TokChain (textLen : Nat) : Nat → List (Nat × Nat) → Prop
  | _, [] => True
  | bound, tok :: toks =>
    bound ≤ tok.1 ∧ 3 ≤ tok.2 ∧ tok.1 + tok.2 ≤ textLen ∧
    TokChain textLen (tok.1 + tok.2) toks

/-- The vendor → URL-prefix table inside `Emojis::loadEmojiSet`. -/
def emojiSets : List (Str × Str) :=
  [(strU "Twitter", strU "https://pajbot.com/static/emoji-v2/img/twitter/64/"),
   (strU "Facebook",
    strU "https://pajbot.com/static/emoji-v2/img/facebook/64/"),
   (strU "Apple", strU "https://pajbot.com/static/emoji-v2/img/apple/64/"),
   (strU "Google", strU "https://pajbot.com/static/emoji-v2/img/google/64/")]

/-- The resolved display reference (`Emote`): glyph as name, image URL,
tooltip.  The 0.35 downscale factor of the image is a float and is not
modelled. -/
structure ResolvedEmote where
  name : Str
  url : Str
  tooltip : Str
  deriving DecidableEq, Repr

/-- The per-record body of `Emojis::loadEmojiSet`: fall back to "Twitter"
when the record's capabilities lack the preferred set, and to a fixed
default prefix when the vendor is missing from the table. -/
def resolveEmote (emojiSet : Str) (emoji : EmojiData) : ResolvedEmote :=
  let emojiSetToUse :=
    if emoji.capabilities.contains emojiSet then emojiSet else strU "Twitter"
  let code := toLowerU emoji.unifiedCode
  let urlPrefix :=
    match lookupStr emojiSets emojiSetToUse with
    | some p => p
    | none => strU "https://pajbot.com/static/emoji-v2/img/twitter/64/"
  let url := urlPrefix ++ code ++ strU ".png"
  { name := emoji.value, url := url,
    tooltip := strU ":" ++ emoji.shortCodes.headD [] ++ strU ":<br/>Emoji" }

/-- `Emojis::loadEmojiSet` over the whole canonical-code map. -/
def loadEmojiSet (emojiSet : Str) (st : LoadState) :
    List (Str × ResolvedEmote) :=
  st.emojis.map (fun p => (p.1, resolveEmote emojiSet p.2))

/-- Modelled from the spec (§4.3): `vendorToUse` is the preference when the
record's capabilities contain it, else the fixed default "Twitter". -/
def specVendorToUse (preference : Str) (capabilities : List Str) : Str :=
  if capabilities.contains preference then preference else strU "Twitter"

/-- Modelled from the spec (§4.3): display URL =
`prefixTable[vendorToUse] + lowercase(unifiedCode) + ".png"`, with a fixed
default prefix when the vendor is absent from the table. -/
def specDisplayUrl (vendorToUse : Str) (unifiedCode : Str) : Str :=
  ((lookupStr emojiSets vendorToUse).getD
    (strU "https://pajbot.com/static/emoji-v2/img/twitter/64/")) ++
  toLowerU unifiedCode ++ strU ".png"

/-- Did an `Except` computation succeed? -/
def isOkB {ε α : Type} : Except ε α → Bool
  | .ok _ => true
  | .error _ => false

instance {ε α : Type} [DecidableEq ε] [DecidableEq α] :
    DecidableEq (Except ε α) := fun a b =>
  match a, b with
  | .ok x, .ok y =>
    if h : x = y then .isTrue (by rw [h]) else .isFalse (by simp [h])
  | .ok _, .error _ => .isFalse (by simp)
  | .error _, .ok _ => .isFalse (by simp)
  | .error x, .error y =>
    if h : x = y then .isTrue (by rw [h]) else .isFalse (by simp [h])

/-! Concrete dataset records and the records the loader builds from them,
used in closed statements below. -/

/-- A well-formed record: shortcode "smile", unified code 1F604. -/
def rawSmile : RawEmoji :=
  ⟨[strU "smile"], none, some (strU "1F604"), true, true, true, false⟩

/-- The entry for `rawSmile`, without skin variations. -/
def entrySmile : RawEntry := ⟨rawSmile, []⟩

/-- What the loader builds from `rawSmile`: glyph U+1F604 as a UTF-16
surrogate pair. -/
def recSmile : EmojiData :=
  ⟨[strU "smile"], [], strU "1F604",
   [strU "Apple", strU "Google", strU "Twitter"], [0xD83D, 0xDE04]⟩

/-- A record whose unified code splits into 10 parts. -/
def rawBad10 : RawEmoji :=
  ⟨[strU "bad"], none, some (strU "1-2-3-4-5-6-7-8-9-A"),
   false, false, false, false⟩

/-- The entry for `rawBad10`. -/
def entryBad10 : RawEntry := ⟨rawBad10, []⟩

/-- A record with both code fields absent. -/
def rawNoCode : RawEmoji :=
  ⟨[strU "nocode"], none, none, false, false, false, false⟩

/-- The entry for `rawNoCode`. -/
def entryNoCode : RawEntry := ⟨rawNoCode, []⟩

/-- What the loader actually builds from `rawNoCode`: a registered record
whose glyph is the single unit U+0000. -/
def recNoCode : EmojiData := ⟨[strU "nocode"], [], [], [], [0]⟩

/-- A record whose shortcode is not lowercase. -/
def rawGrin : RawEmoji :=
  ⟨[strU "Grin"], none, some (strU "1F600"), false, false, false, false⟩

/-- The entry for `rawGrin`. -/
def entryGrin : RawEntry := ⟨rawGrin, []⟩

/-- What the loader builds from `rawGrin`: the shortcode key stays
"Grin". -/
def recGrin : EmojiData :=
  ⟨[strU "Grin"], [], strU "1F600", [], [0xD83D, 0xDE00]⟩

/-- Another record with a non-lowercase shortcode. -/
def rawWave : RawEmoji :=
  ⟨[strU "Wave"], none, some (strU "1F44B"), false, false, false, false⟩

/-- The entry for `rawWave`. -/
def entryWave : RawEntry := ⟨rawWave, []⟩

/-- What the loader builds from `rawWave`. -/
def recWave : EmojiData :=
  ⟨[strU "Wave"], [], strU "1F44B", [], [0xD83D, 0xDC4B]⟩

/-- A record whose glyph is the two units "aa". -/
def rawAA : RawEmoji :=
  ⟨[strU "aa"], none, some (strU "61-61"), false, false, false, false⟩

/-- The entry for `rawAA`. -/
def entryAA : RawEntry := ⟨rawAA, []⟩

/-- What the loader builds from `rawAA`. -/
def recAA : EmojiData := ⟨[strU "aa"], [], strU "61-61", [], [97, 97]⟩

/-- A record whose glyph is the three units "aab"; "aa" is its strict
prefix and shares its first unit. -/
def rawAAB : RawEmoji :=
  ⟨[strU "aab"], none, some (strU "61-61-62"), false, false, false, false⟩

/-- The entry for `rawAAB`. -/
def entryAAB : RawEntry := ⟨rawAAB, []⟩

/-- What the loader builds from `rawAAB`. -/
def recAAB : EmojiData :=
  ⟨[strU "aab"], [], strU "61-61-62", [], [97, 97, 98]⟩

/-- A one-entry shortcode map with the lowercase key "smile". -/
def smileMap : List (Str × EmojiData) := [(strU "smile", recSmile)]

/-! Theorems. -/

theorem foldl_toneNames (parts : List Str) (acc : List Str) :
    parts.foldl
      (fun acc tonePart =>
        match lookupStr toneNames tonePart with
        | none => acc
        | some name => acc ++ [name]) acc
    = acc ++ parts.filterMap (lookupStr toneNames) := by
  induction parts generalizing acc with
  | nil => simp
  | cons p t ih =>
    simp only [List.foldl_cons, List.filterMap_cons]
    cases h : lookupStr toneNames p with
    | none => simp [h, ih]
    | some name => simp [h, ih]

/-- C5: `getToneNames` splits the tone key on `-`, maps each part through
the fixed 5-entry tone table, drops parts not found, and joins the
surviving labels with `-`; in particular "1F3FB-1F3FF" resolves to
"tone1-tone5" and "1F3FD" resolves to "tone3". -/
theorem getToneNames_spec :
    (∀ toneKey : Str,
      getToneNames toneKey =
        List.intercalate (strU "-")
          ((splitOn 0x2D toneKey).filterMap (lookupStr toneNames))) ∧
    getToneNames (strU "1F3FB-1F3FF") = strU "tone1-tone5" ∧
    getToneNames (strU "1F3FD") = strU "tone3" := by
  refine ⟨fun toneKey => ?_, by decide, by decide⟩
  simp only [getToneNames, foldl_toneNames, List.nil_append]

/-- C6: for every record and preference, the resolved URL follows the
spec's description — vendor = preference when the capabilities contain it,
else the fixed default "Twitter"; URL = table prefix of that vendor (or the
fixed default prefix) + lowercase unified code + ".png"; in particular
preference "Google" on capabilities {Apple, Twitter} falls back to
"Twitter" and yields the default-prefix URL. -/
theorem resolveEmote_spec :
    (∀ (preference : Str) (emoji : EmojiData),
      (resolveEmote preference emoji).url =
        specDisplayUrl (specVendorToUse preference emoji.capabilities)
          emoji.unifiedCode) ∧
    specVendorToUse (strU "Google") [strU "Apple", strU "Twitter"] =
      strU "Twitter" ∧
    (resolveEmote (strU "Google")
        ⟨[strU "smile"], [], strU "1F604", [strU "Apple", strU "Twitter"],
         [0xD83D, 0xDE04]⟩).url =
      strU "https://pajbot.com/static/emoji-v2/img/twitter/64/1f604.png" := by
  refine ⟨fun preference emoji => ?_, by decide, by decide⟩
  simp only [resolveEmote, specDisplayUrl, specVendorToUse]
  cases h : lookupStr emojiSets
      (if emoji.capabilities.contains preference then preference
       else strU "Twitter") <;>
    simp [h]

/-- C3 (code bug): a record with both code fields absent is NOT skipped:
`QString("").split('-')` yields one empty part, so the `< 1` guard — the
code's own evidence of the intent to drop such records — never fires,
`toUInt("", 16)` yields 0, and the record is registered everywhere with the
glyph U+0000, violating the never-empty-glyph intent. -/
theorem loadEmojis_missing_codes_registers_null :
    parseEmoji rawNoCode = .ok recNoCode ∧
    recNoCode.value = [0] ∧
    lookupStr (loadStateD (loadEmojis [entryNoCode])).shortCodeMap
      (strU "nocode") = some recNoCode ∧
    bucketFind (loadStateD (loadEmojis [entryNoCode])).firstByte 0 =
      some [recNoCode] := by
  decide

theorem parseEmoji_overlong {raw : RawEmoji} (shortCode : Str)
    (h : 9 < (chosenParts raw).length) :
    parseEmoji raw shortCode = .error "std::out_of_range: array::at" := by
  have h1 : ¬ (chosenParts raw).length < 1 := by omega
  simp only [parseEmoji, if_neg h1, if_pos h]

theorem loadEmojisFrom_mem_error {entry : RawEntry} {msg : String}
    (herr : parseEmoji entry.emoji = .error msg) :
    ∀ (entries : List RawEntry) (st : LoadState), entry ∈ entries →
      ∃ m, loadEmojisFrom st entries = .error m := by
  intro entries
  induction entries with
  | nil => intro st hmem; cases hmem
  | cons e t ih =>
    intro st hmem
    rcases List.mem_cons.mp hmem with rfl | hmem'
    · exact ⟨msg, by simp [loadEmojisFrom, herr]⟩
    · cases hp : parseEmoji e.emoji with
      | error m => exact ⟨m, by simp [loadEmojisFrom, hp]⟩
      | ok rec =>
        cases hv : loadVariations rec (registerBase st rec)
            e.skin_variations with
        | error m => exact ⟨m, by simp [loadEmojisFrom, hp, hv]⟩
        | ok st2 =>
          obtain ⟨m, hm⟩ := ih st2 hmem'
          exact ⟨m, by simp [loadEmojisFrom, hp, hv, hm]⟩

/-- C2 (amended): a raw record whose chosen code field decodes to more
than 9 codepoints does NOT merely fail for that record: the bounds-checked
`array::at` throws, nothing catches it, and the whole load aborts with the
error — no remaining record is loaded. -/
theorem loadEmojis_overlong_aborts (entries : List RawEntry)
    (entry : RawEntry) (hmem : entry ∈ entries)
    (hlen : 9 < (chosenParts entry.emoji).length) :
    ∃ msg, loadEmojis entries = .error msg :=
  loadEmojisFrom_mem_error (parseEmoji_overlong [] hlen) entries _ hmem

/-- C2 witness: the amended theorem at a concrete dataset. -/
theorem loadEmojis_overlong_aborts_witness :
    entryBad10 ∈ [entryBad10, entrySmile] ∧
    9 < (chosenParts entryBad10.emoji).length ∧
    isOkB (loadEmojis [entryBad10, entrySmile]) = false := by
  refine ⟨by decide, by decide, ?_⟩
  obtain ⟨msg, hm⟩ := loadEmojis_overlong_aborts [entryBad10, entrySmile]
    entryBad10 (by decide) (by decide)
  rw [hm]
  rfl

/-- C2 counterexample: loading a 10-codepoint record alongside a good one
produces no state at all — the good record is not loaded, refuting
"the record is skipped and loading of the remaining records continues". -/
theorem loadEmojis_overlong_counterexample :
    (chosenParts rawBad10).length = 10 ∧
    isOkB (loadEmojis [entryBad10, entrySmile]) = false ∧
    isOkB (loadEmojis [entrySmile]) = true := by
  decide

theorem findTokensLoop_of_ge (text : Str) (fuel i : Nat)
    (h : text.length ≤ i) : findTokensLoop text fuel i = [] := by
  cases fuel with
  | zero => rfl
  | succ f => simp [findTokensLoop, Nat.not_lt.mpr h]

theorem scRunList_all_stop {v : Str} (hv : v.all isShortCodeChar = true)
    {c : U16} (hc : isShortCodeChar c = false) (rest : Str) :
    scRunList (v ++ c :: rest) = v.length := by
  induction v with
  | nil => simp [scRunList, hc]
  | cons a t ih =>
    simp only [List.all_cons, Bool.and_eq_true] at hv
    simp [scRunList, hv.1, ih hv.2]

theorem findTokens_wrap {v : Str} (hne : v ≠ [])
    (hsc : v.all isShortCodeChar = true) :
    findTokens (0x3A :: v ++ [0x3A]) = [(0, v.length + 2)] := by
  have hlen : (0x3A :: v ++ [0x3A]).length = v.length + 2 := by simp
  have hrun : scRunList ((0x3A :: v ++ [0x3A]).drop 1) = v.length := by
    simpa using scRunList_all_stop hsc (c := 0x3A) (by decide) []
  have hv1 : 1 ≤ v.length := List.length_pos.mpr hne
  have hlast : (0x3A :: v ++ [0x3A]).getD (v.length + 1) 0 = 0x3A := by
    simp [List.getD_eq_getElem?_getD,
          List.getElem?_append_right (Nat.le_refl v.length)]
  unfold findTokens
  rw [hlen]
  show findTokensLoop (0x3A :: v ++ [0x3A]) (v.length + 1 + 1) 0 = _
  rw [findTokensLoop]
  simp only [Nat.zero_add, hrun, hlen]
  rw [if_pos (by omega)]
  have hcond : ((0x3A :: v ++ [0x3A]).getD 0 0 == 0x3A &&
      decide (1 ≤ v.length) &&
      (0x3A :: v ++ [0x3A]).getD (1 + v.length) 0 == 0x3A) = true := by
    rw [Nat.add_comm 1 v.length, hlast]
    simp [hv1]
  rw [if_pos hcond]
  rw [findTokensLoop_of_ge _ _ _ (by simp)]

/-- C8 (amended): the shortcode map stores registered shortcodes verbatim
and lookup lowercases the token, so substitution is case-insensitive
exactly for records whose stored shortcode is lowercase: every case
variant of such a shortcode, wrapped in colons, substitutes to the glyph. -/
theorem substitute_case_variant (m : List (Str × EmojiData))
    (s v : Str) (rec : EmojiData)
    (hreg : lookupStr m s = some rec)
    (_hlow : toLowerU s = s)
    (hvar : toLowerU v = s)
    (hne : v ≠ []) (hsc : v.all isShortCodeChar = true) :
    replaceShortCodes m (0x3A :: v ++ [0x3A]) = rec.value := by
  have hsl : s.length = v.length := by
    rw [← hvar]; simp [toLowerU]
  have htlen : (0x3A :: v ++ [0x3A]).length = v.length + 2 := by simp
  have hinner : tokenInner (0x3A :: v ++ [0x3A]) (0, v.length + 2) = s := by
    unfold tokenInner
    simp only [List.drop_zero]
    rw [List.take_of_length_le (le_of_eq htlen)]
    have ht : toLowerU (0x3A :: v ++ [0x3A]) = 0x3A :: s ++ [0x3A] := by
      show lowerChar 0x3A :: toLowerU (v ++ [0x3A]) = 0x3A :: s ++ [0x3A]
      have h2 : toLowerU (v ++ [0x3A]) = toLowerU v ++ [lowerChar 0x3A] := by
        simp [toLowerU]
      rw [h2, hvar, show lowerChar 0x3A = 0x3A by decide]
      rfl
    rw [ht, show ((0x3A :: s ++ [0x3A] : Str).drop 1) = s ++ [0x3A] from rfl,
       show v.length + 2 - 2 = s.length by omega, List.take_left]
  unfold replaceShortCodes
  rw [findTokens_wrap hne hsc]
  simp only [List.foldl_cons, List.foldl_nil, replaceStep, hinner, hreg]
  unfold strReplace
  rw [List.drop_of_length_le (by rw [htlen]; omega)]
  simp

/-- C8 witness: the amended theorem at the lowercase key "smile" and its
case variant "SMILE". -/
theorem substitute_case_variant_witness :
    lookupStr smileMap (strU "smile") = some recSmile ∧
    toLowerU (strU "SMILE") = strU "smile" ∧
    replaceShortCodes smileMap (0x3A :: strU "SMILE" ++ [0x3A]) =
      recSmile.value :=
  ⟨by decide, by decide,
   substitute_case_variant smileMap (strU "smile") (strU "SMILE") recSmile
     (by decide) (by decide) (by decide) (by decide) (by decide)⟩

/-- C8 counterexample: a registered shortcode "Grin" is stored verbatim —
the index does not map its lowercase form, and neither its lowercase nor
its uppercase colon-wrapped variant substitutes. -/
theorem byShortcode_keys_not_lowercased :
    lookupStr (loadStateD (loadEmojis [entryGrin])).shortCodeMap
      (strU "Grin") = some recGrin ∧
    lookupStr (loadStateD (loadEmojis [entryGrin])).shortCodeMap
      (toLowerU (strU "Grin")) = none ∧
    replaceShortCodes (loadStateD (loadEmojis [entryGrin])).shortCodeMap
      (strU ":GRIN:") = strU ":GRIN:" := by
  decide

/-- C4 counterexample: "Wave" is registered in the index, yet
substitute(":Wave:") leaves the token unchanged, because the lookup
lowercases the token while the key was stored verbatim. -/
theorem substitute_registered_not_replaced :
    lookupStr (loadStateD (loadEmojis [entryWave])).shortCodeMap
      (strU "Wave") = some recWave ∧
    replaceShortCodes (loadStateD (loadEmojis [entryWave])).shortCodeMap
      (strU ":Wave:") = strU ":Wave:" ∧
    strU ":Wave:" ≠ recWave.value := by
  decide

theorem foldl_replaceStep_none (m : List (Str × EmojiData)) (y : Str) :
    ∀ (toks : List (Nat × Nat)) (acc : Str × Int),
      (∀ tok ∈ toks, lookupStr m (tokenInner y tok) = none) →
      toks.foldl (replaceStep m y) acc = acc := by
  intro toks
  induction toks with
  | nil => intro acc _; rfl
  | cons t ts ih =>
    intro acc h
    rw [List.foldl_cons]
    have hstep : replaceStep m y acc t = acc := by
      unfold replaceStep
      rw [h t (List.mem_cons_self ..)]
    rw [hstep]
    exact ih acc (fun tok htok => h tok (List.mem_cons_of_mem _ htok))

/-- C9: substitution is idempotent under the documented precondition —
when the first substitution's output contains no colon token whose
lowercased inner text is a known shortcode, substituting again changes
nothing. -/
theorem substitute_idempotent (m : List (Str × EmojiData)) (x : Str)
    (h : ∀ tok ∈ findTokens (replaceShortCodes m x),
      lookupStr m (tokenInner (replaceShortCodes m x) tok) = none) :
    replaceShortCodes m (replaceShortCodes m x) = replaceShortCodes m x := by
  have hdef : replaceShortCodes m (replaceShortCodes m x) =
      ((findTokens (replaceShortCodes m x)).foldl
        (replaceStep m (replaceShortCodes m x))
        (replaceShortCodes m x, 0)).1 := rfl
  rw [hdef, foldl_replaceStep_none m _ _ _ h]

/-- C9 witness: the theorem at a concrete map and input whose substitution
output has no remaining known token. -/
theorem substitute_idempotent_witness :
    replaceShortCodes smileMap
        (replaceShortCodes smileMap (strU "hi :smile:")) =
      replaceShortCodes smileMap (strU "hi :smile:") :=
  substitute_idempotent smileMap (strU "hi :smile:") (by decide)

theorem tokChain_mono {textLen : Nat} {toks : List (Nat × Nat)}
    {b b' : Nat} (h : TokChain textLen b' toks) (hb : b ≤ b') :
    TokChain textLen b toks := by
  cases toks with
  | nil => trivial
  | cons t ts =>
    obtain ⟨h1, h2, h3, h4⟩ := h
    exact ⟨Nat.le_trans hb h1, h2, h3, h4⟩

theorem lt_length_of_getD_colon {text : Str} {n : Nat}
    (h : text.getD n 0 = 0x3A) : n < text.length := by
  by_contra hn
  rw [List.getD_eq_getElem?_getD, List.getElem?_eq_none (by omega)] at h
  simp at h

theorem findTokensLoop_chain (text : Str) :
    ∀ (fuel i : Nat), TokChain text.length i (findTokensLoop text fuel i) := by
  intro fuel
  induction fuel with
  | zero => intro i; trivial
  | succ f ih =>
    intro i
    rw [findTokensLoop]
    by_cases hi : i < text.length
    · rw [if_pos hi]
      simp only []
      by_cases hc : (text.getD i 0 == 0x3A &&
          decide (1 ≤ scRunList (text.drop (i + 1))) &&
          text.getD (i + 1 + scRunList (text.drop (i + 1))) 0 == 0x3A) = true
      · rw [if_pos hc]
        simp only [Bool.and_eq_true, beq_iff_eq, decide_eq_true_eq] at hc
        obtain ⟨⟨_, hrun⟩, hend⟩ := hc
        have hlt := lt_length_of_getD_colon hend
        refine ⟨Nat.le_refl i, by omega, by omega, ?_⟩
        have := ih (i + scRunList (text.drop (i + 1)) + 2)
        exact tokChain_mono this (by omega)
      · rw [if_neg hc]
        exact tokChain_mono (ih (i + 1)) (by omega)
    · rw [if_neg hi]
      trivial

theorem findTokens_chain (text : Str) :
    TokChain text.length 0 (findTokens text) :=
  findTokensLoop_chain text text.length 0

theorem replace_foldl_spec (m : List (Str × EmojiData)) (text : Str) :
    ∀ (toks : List (Nat × Nat)) (out : Str) (lastEnd : Nat),
      TokChain text.length lastEnd toks → lastEnd ≤ text.length →
      (toks.foldl (replaceStep m text)
        (out ++ text.drop lastEnd,
         (out.length : Int) - (lastEnd : Int))).1
      = out ++ specSubstituteGo m text lastEnd toks := by
  intro toks
  induction toks with
  | nil =>
    intro out lastEnd _ _
    rfl
  | cons tok toks ih =>
    obtain ⟨s, n⟩ := tok
    intro out lastEnd hchain hle
    obtain ⟨h1, h2, h3, h4⟩ := hchain
    have hdlen : ((text.drop lastEnd).take (s - lastEnd)).length =
        s - lastEnd := by
      simp only [List.length_take, List.length_drop]
      omega
    rw [List.foldl_cons]
    cases hl : lookupStr m (tokenInner text (s, n)) with
    | none =>
      have hstep : replaceStep m text
          (out ++ text.drop lastEnd, (out.length : Int) - (lastEnd : Int))
          (s, n) =
          (out ++ text.drop lastEnd, (out.length : Int) - (lastEnd : Int)) := by
        unfold replaceStep
        rw [hl]
      rw [hstep]
      have htakelen : ((text.drop lastEnd).take (s + n - lastEnd)).length =
          s + n - lastEnd := by
        simp only [List.length_take, List.length_drop]
        omega
      have hsplit : out ++ text.drop lastEnd =
          (out ++ (text.drop lastEnd).take (s + n - lastEnd)) ++
            text.drop (s + n) := by
        rw [List.append_assoc]
        congr 1
        conv_lhs => rw [← List.take_append_drop (s + n - lastEnd)
          (text.drop lastEnd)]
        rw [List.drop_drop, show lastEnd + (s + n - lastEnd) = s + n by omega]
      have hoff : (out.length : Int) - (lastEnd : Int) =
          ((out ++ (text.drop lastEnd).take (s + n - lastEnd)).length : Int) -
            ((s + n : Nat) : Int) := by
        rw [List.length_append, htakelen]
        omega
      rw [hsplit, hoff, ih _ (s + n) h4 h3]
      show _ = out ++ specSubstituteGo m text lastEnd ((s, n) :: toks)
      rw [specSubstituteGo, hl]
      rw [show s + n - lastEnd = (s - lastEnd) + n by omega, List.take_add,
        List.drop_drop, show lastEnd + (s - lastEnd) = s by omega]
      simp [List.append_assoc]
    | some e =>
      have hpos : (((out.length : Int) - (lastEnd : Int)) + (s : Int)).toNat
          = out.length + (s - lastEnd) := by
        omega
      have hstep : replaceStep m text
          (out ++ text.drop lastEnd, (out.length : Int) - (lastEnd : Int))
          (s, n) =
          ((out ++ ((text.drop lastEnd).take (s - lastEnd) ++ e.value)) ++
             text.drop (s + n),
           (((out ++ ((text.drop lastEnd).take (s - lastEnd) ++
               e.value)).length : Int) - ((s + n : Nat) : Int))) := by
        unfold replaceStep
        rw [hl]
        unfold strReplace
        have htake : (out ++ text.drop lastEnd).take
            ((((out.length : Int) - (lastEnd : Int)) + (s : Int)).toNat) =
            out ++ (text.drop lastEnd).take (s - lastEnd) := by
          rw [hpos, List.take_append]
        have hdrop : (out ++ text.drop lastEnd).drop
            ((((out.length : Int) - (lastEnd : Int)) + (s : Int)).toNat + n) =
            text.drop (s + n) := by
          rw [hpos, show out.length + (s - lastEnd) + n =
            out.length + ((s - lastEnd) + n) by omega, List.drop_append,
            List.drop_drop, show lastEnd + (s - lastEnd + n) = s + n by omega]
        rw [htake, hdrop]
        simp only [Prod.mk.injEq, List.length_append, hdlen]
        refine ⟨by simp [List.append_assoc], by omega⟩
      rw [hstep, ih _ (s + n) h4 h3]
      show _ = out ++ specSubstituteGo m text lastEnd ((s, n) :: toks)
      rw [specSubstituteGo, hl]
      simp [List.append_assoc]

theorem bucketFind_sortEmojis (st : LoadState) (c : U16) :
    bucketFind (sortEmojis st).firstByte c =
      (bucketFind st.firstByte c).map (List.insertionSort lenGE) := by
  unfold bucketFind sortEmojis
  simp only []
  rw [List.find?_map]
  cases h : st.firstByte.find? (fun p => p.1 == c) with
  | none =>
    have : st.firstByte.find?
        ((fun p : U16 × List EmojiData => p.1 == c) ∘
          (fun p => (p.1, List.insertionSort lenGE p.2))) = none := by
      rw [show ((fun p : U16 × List EmojiData => p.1 == c) ∘
        (fun p => (p.1, List.insertionSort lenGE p.2))) =
        (fun p : U16 × List EmojiData => p.1 == c) from rfl, h]
    rw [this]
    rfl
  | some p =>
    have : st.firstByte.find?
        ((fun p : U16 × List EmojiData => p.1 == c) ∘
          (fun p => (p.1, List.insertionSort lenGE p.2))) = some p := by
      rw [show ((fun p : U16 × List EmojiData => p.1 == c) ∘
        (fun p => (p.1, List.insertionSort lenGE p.2))) =
        (fun p : U16 × List EmojiData => p.1 == c) from rfl, h]
    rw [this]
    rfl

theorem find?_sorted_rel {α : Type} {R : α → α → Prop} {p : α → Bool}
    {l : List α} {y x : α} (hs : l.Sorted R) (hf : l.find? p = some y)
    (hx : x ∈ l) (hpx : p x = true) : R y x ∨ y = x := by
  induction l with
  | nil => cases hf
  | cons a t ih =>
    rw [List.find?_cons] at hf
    cases hpa : p a with
    | true =>
      rw [hpa] at hf
      have hya : y = a := by cases hf; rfl
      rcases List.mem_cons.mp hx with rfl | hxt
      · right
        exact hya
      · left
        rw [hya]
        exact (List.sorted_cons.mp hs).1 x hxt
    | false =>
      rw [hpa] at hf
      rcases List.mem_cons.mp hx with rfl | hxt
      · rw [hpx] at hpa
        cases hpa
      · exact ih (List.sorted_cons.mp hs).2 hf hxt

theorem emojiMatches_of_full {text : Str} {i : Nat} {e : EmojiData}
    (hne : e.value ≠ [])
    (hfit : i + e.value.length ≤ text.length)
    (hmatch : ∀ j < e.value.length,
      text.getD (i + j) 0 = e.value.getD j 0) :
    emojiMatches text i e = true := by
  have hlen : 1 ≤ e.value.length := List.length_pos.mpr hne
  unfold emojiMatches
  rw [if_neg (by omega), List.all_eq_true]
  intro j hj
  rw [List.mem_range'_1] at hj
  exact beq_iff_eq.mpr (hmatch j (by omega))

/-- C1 (amended): when the scanner attempts a match at a position where
the text contains the longer glyph A+B, the sorted bucket (descending
glyph length, as `sortEmojis` orders it) guarantees the selected match is
at least as long as A+B and is never the strict-prefix record A.  The
original claim's universal form — any text containing A+B yields the A+B
record at that position — fails, because an earlier overlapping match may
consume the position before it is examined (see the counterexample). -/
theorem sorted_bucket_never_shorter_prefix (st : LoadState) (c : U16)
    (l : List EmojiData) (A AB : EmojiData) (text : Str) (i : Nat)
    (hb : bucketFind st.firstByte c = some l)
    (_hA : A ∈ l) (hAB : AB ∈ l)
    (_hAne : A.value ≠ [])
    (_hpre : A.value = AB.value.take A.value.length)
    (hlt : A.value.length < AB.value.length)
    (hfit : i + AB.value.length ≤ text.length)
    (hmatch : ∀ j < AB.value.length,
      text.getD (i + j) 0 = AB.value.getD j 0) :
    bucketFind (sortEmojis st).firstByte c =
      some (List.insertionSort lenGE l) ∧
    findMatch text i (List.insertionSort lenGE l) ≠ none ∧
    AB.value.length ≤
      ((findMatch text i
        (List.insertionSort lenGE l)).getD default).value.length ∧
    (findMatch text i (List.insertionSort lenGE l)).getD default ≠ A := by
  have hsorted := bucketFind_sortEmojis st c
  rw [hb] at hsorted
  have hABne : AB.value ≠ [] := by
    intro h
    rw [h] at hlt
    simp at hlt
  have hABmem : AB ∈ List.insertionSort lenGE l :=
    (List.mem_insertionSort lenGE).mpr hAB
  have hpAB : emojiMatches text i AB = true :=
    emojiMatches_of_full hABne hfit hmatch
  have hsome : (List.insertionSort lenGE l).find?
      (emojiMatches text i) |>.isSome := by
    rw [List.find?_isSome]
    exact ⟨AB, hABmem, hpAB⟩
  obtain ⟨r, hr⟩ := Option.isSome_iff_exists.mp hsome
  have hrel := find?_sorted_rel (List.sorted_insertionSort lenGE l)
    hr hABmem hpAB
  have hrlen : AB.value.length ≤ r.value.length := by
    rcases hrel with h | h
    · exact h
    · rw [h]
  refine ⟨hsorted, ?_, ?_, ?_⟩
  · unfold findMatch
    rw [hr]
    simp
  · unfold findMatch
    rw [hr]
    exact hrlen
  · unfold findMatch
    rw [hr]
    intro h
    rw [Option.getD_some] at h
    rw [h] at hrlen
    omega

/-- C1 witness: the amended theorem at the concrete two-record index
{"aa", "aab"} and a text that is exactly "aab". -/
theorem sorted_bucket_never_shorter_prefix_witness :
    bucketFind
        (sortEmojis (loadStateD (loadEmojis [entryAA, entryAAB]))).firstByte
        97 = some (List.insertionSort lenGE [recAA, recAAB]) ∧
    findMatch [97, 97, 98] 0 (List.insertionSort lenGE [recAA, recAAB]) ≠
      none ∧
    recAAB.value.length ≤
      ((findMatch [97, 97, 98] 0
        (List.insertionSort lenGE [recAA, recAAB])).getD
          default).value.length ∧
    (findMatch [97, 97, 98] 0
      (List.insertionSort lenGE [recAA, recAAB])).getD default ≠ recAA :=
  sorted_bucket_never_shorter_prefix
    (loadStateD (loadEmojis [entryAA, entryAAB])) 97 [recAA, recAAB]
    recAA recAAB [97, 97, 98] 0 (by decide) (by decide) (by decide)
    (by decide) (by decide) (by decide) (by decide) (by decide)

/-- C1 counterexample: the literal claim is false — "aaab" contains the
longer glyph "aab" at position 1, but the scan matches the shorter "aa" at
position 0 (which overlaps position 1), so the result contains the record
for A and never the record for A+B. -/
theorem scan_overlap_shadows_longest :
    parse
        (sortEmojis (loadStateD (loadEmojis [entryAA, entryAAB]))).firstByte
        [97, 97, 97, 98] =
      [Segment.emote recAA, Segment.lit [97, 98]] ∧
    ([97, 97, 97, 98].drop 1).take 3 = recAAB.value ∧
    recAA.value = recAAB.value.take 2 ∧
    recAA ≠ recAAB := by
  decide

theorem parseMatchesLoop_not_low (idx : FirstByteIndex) (text : Str) :
    ∀ (fuel i p : Nat) (r : EmojiData),
      (p, r) ∈ parseMatchesLoop idx text fuel i →
      isLowSurrogate (text.getD p 0) = false := by
  intro fuel
  induction fuel with
  | zero =>
    intro i p r h
    cases h
  | succ f ih =>
    intro i p r h
    rw [parseMatchesLoop] at h
    by_cases hi : i < text.length
    · rw [if_pos hi] at h
      by_cases hls : isLowSurrogate (text.getD i 0) = true
      · rw [if_pos hls] at h
        exact ih (i + 1) p r h
      · rw [if_neg hls] at h
        cases hb : bucketFind idx (text.getD i 0) with
        | none =>
          rw [hb] at h
          exact ih (i + 1) p r h
        | some cands =>
          rw [hb] at h
          simp only [] at h
          cases hf : findMatch text i cands with
          | none =>
            rw [hf] at h
            simp only [] at h
            exact ih (i + 1) p r h
          | some matched =>
            rw [hf] at h
            simp only [] at h
            by_cases hz : (matched.value.length == 0) = true
            · rw [if_pos hz] at h
              exact ih (i + 1) p r h
            · rw [if_neg hz] at h
              rcases List.mem_cons.mp h with heq | hrest
              · have hp : p = i := congrArg Prod.fst heq
                rw [hp]
                exact Bool.not_eq_true _ ▸ hls
              · exact ih (i + matched.value.length) p r hrest
    · rw [if_neg hi] at h
      cases h

/-- C7: no match produced by the scan begins at a low-surrogate position —
the scanner skips low-surrogate continuations — and, the span being
contiguous, any low surrogate inside a match whose paired high surrogate
precedes it has that high surrogate inside the same match: no surrogate
pair is split across segments. -/
theorem scan_surrogate_safe (idx : FirstByteIndex) (text : Str)
    (p k : Nat) (r : EmojiData)
    (hmem : (p, r) ∈ parseMatches idx text) :
    isLowSurrogate (text.getD p 0) = false ∧
    (p < k → k < p + r.value.length →
      isLowSurrogate (text.getD k 0) = true →
      isHighSurrogate (text.getD (k - 1) 0) = true →
      p ≤ k - 1 ∧ k - 1 < p + r.value.length) :=
  ⟨parseMatchesLoop_not_low idx text text.length 0 p r hmem,
   fun h1 h2 _ _ => ⟨by omega, by omega⟩⟩

/-- C7 witness: the theorem at a concrete scan — the glyph U+1F604 (a
surrogate pair) matched at position 3 of "hi 😄 there"; the low surrogate
at position 4 has its high surrogate at position 3, inside the match. -/
theorem scan_surrogate_safe_witness :
    isLowSurrogate
      ((strU "hi " ++ [0xD83D, 0xDE04] ++ strU " there").getD 3 0) = false ∧
    (3 ≤ 4 - 1 ∧ 4 - 1 < 3 + recSmile.value.length) :=
  have h := scan_surrogate_safe
    (sortEmojis (loadStateD (loadEmojis [entrySmile]))).firstByte
    (strU "hi " ++ [0xD83D, 0xDE04] ++ strU " there") 3 4 recSmile
    (by decide)
  ⟨h.1, h.2 (by decide) (by decide) (by decide) (by decide)⟩

/-- C4 (amended): the substitution equals the spec-worded per-token
replacement over the original text — each token whose LOWERCASED inner
text is a stored key is replaced by that record's glyph at its original
span (the cumulative-offset bookkeeping is exactly position shifting), and
every other token is left unchanged.  "Registered" must be read as:
the lowercased token equals a stored key — a shortcode stored in
non-lowercase form is never substituted (see the counterexample). -/
theorem replaceShortCodes_eq_spec (m : List (Str × EmojiData))
    (text : Str) :
    replaceShortCodes m text = specSubstitute m text := by
  have hacc : (text, (0 : Int)) =
      (([] : Str) ++ text.drop 0,
       ((([] : Str).length : Int) - ((0 : Nat) : Int))) := by
    simp
  unfold replaceShortCodes
  rw [hacc, replace_foldl_spec m text (findTokens text) [] 0
    (findTokens_chain text) (Nat.zero_le _)]
  rfl

theorem splitOn_ne_nil (sep : U16) (s : Str) : splitOn sep s ≠ [] := by
  cases s with
  | nil => simp [splitOn]
  | cons c rest =>
    unfold splitOn
    by_cases h : (c == sep) = true
    · simp [h]
    · simp [h]

theorem ucs4Unit_ne_nil (cp : Nat) : ucs4Unit cp ≠ [] := by
  unfold ucs4Unit
  split
  · split <;> simp
  · split <;> simp

theorem fromUcs4_ne_nil {cps : List Nat} (h : cps ≠ []) :
    fromUcs4 cps ≠ [] := by
  cases cps with
  | nil => exact absurd rfl h
  | cons a t =>
    unfold fromUcs4
    rw [List.flatMap_cons]
    intro hh
    exact ucs4Unit_ne_nil a (List.append_eq_nil.mp hh).1

theorem chosenParts_ne_nil (raw : RawEmoji) : chosenParts raw ≠ [] := by
  unfold chosenParts
  split <;> exact splitOn_ne_nil _ _

theorem parseEmoji_ok_value {raw : RawEmoji} {sc : Str} {e : EmojiData}
    (h : parseEmoji raw sc = .ok e) : e.value ≠ [] := by
  unfold parseEmoji at h
  have hcp : chosenParts raw ≠ [] := chosenParts_ne_nil raw
  have hlen : 1 ≤ (chosenParts raw).length := List.length_pos.mpr hcp
  rw [if_neg (by omega)] at h
  by_cases h9 : (chosenParts raw).length > 9
  · rw [if_pos h9] at h
    cases h
  · rw [if_neg h9] at h
    injection h with h
    rw [← h]
    exact fromUcs4_ne_nil (by
      intro hmap
      exact hcp (List.map_eq_nil_iff.mp hmap))

theorem wf_bucketAppend {idx : FirstByteIndex} (hwf : WFIndex idx)
    {e : EmojiData} (hne : e.value ≠ []) :
    WFIndex (bucketAppend idx (e.value.headD 0) e) := by
  intro p hp e' he'
  unfold bucketAppend at hp
  by_cases hex : idx.any (fun q => q.1 == e.value.headD 0) = true
  · rw [if_pos hex] at hp
    obtain ⟨q, hq, hpq⟩ := List.mem_map.mp hp
    by_cases hqk : (q.1 == e.value.headD 0) = true
    · rw [if_pos hqk] at hpq
      subst hpq
      rcases List.mem_append.mp he' with hin | hone
      · exact hwf q hq e' hin
      · have he : e' = e := by
          cases hone with
          | head => rfl
          | tail _ hx => cases hx
        subst he
        exact ⟨hne, (beq_iff_eq.mp hqk).symm⟩
    · rw [if_neg hqk] at hpq
      subst hpq
      exact hwf q hq e' he'
  · rw [if_neg hex] at hp
    rcases List.mem_append.mp hp with hin | hone
    · exact hwf p hin e' he'
    · have hpe : p = (e.value.headD 0, [e]) := by
        cases hone with
        | head => rfl
        | tail _ hx => cases hx
      subst hpe
      have he : e' = e := by
        cases he' with
        | head => rfl
        | tail _ hx => cases hx
      subst he
      exact ⟨hne, rfl⟩

theorem foldl_sc_firstByte (st : LoadState) (scs : List Str)
    (e : EmojiData) :
    (scs.foldl (fun s sc =>
      { s with shortCodeMap := mapInsert s.shortCodeMap sc e,
               shortCodes := s.shortCodes ++ [sc] }) st).firstByte =
    st.firstByte := by
  induction scs generalizing st with
  | nil => rfl
  | cons a t ih =>
    rw [List.foldl_cons]
    exact ih _

theorem registerBase_firstByte (st : LoadState) (e : EmojiData) :
    (registerBase st e).firstByte =
      bucketAppend st.firstByte (e.value.headD 0) e := by
  unfold registerBase
  simp only []
  rw [foldl_sc_firstByte]

theorem loadVariations_wf {base : EmojiData} :
    ∀ (vars : List (Str × RawEmoji)) (st st' : LoadState),
      WFIndex st.firstByte →
      loadVariations base st vars = .ok st' →
      WFIndex st'.firstByte := by
  intro vars
  induction vars with
  | nil =>
    intro st st' hwf h
    injection h with h
    exact h ▸ hwf
  | cons v vs ih =>
    obtain ⟨toneKey, variation⟩ := v
    intro st st' hwf h
    unfold loadVariations at h
    simp only [] at h
    cases hp : parseEmoji variation
        (base.shortCodes.headD [] ++ strU "_" ++ getToneNames toneKey) with
    | error m =>
      rw [hp] at h
      cases h
    | ok ve =>
      rw [hp] at h
      simp only [] at h
      refine ih _ _ ?_ h
      show WFIndex (bucketAppend st.firstByte (ve.value.headD 0) ve)
      exact wf_bucketAppend hwf (parseEmoji_ok_value hp)

theorem loadEmojisFrom_wf :
    ∀ (entries : List RawEntry) (st st' : LoadState),
      WFIndex st.firstByte →
      loadEmojisFrom st entries = .ok st' →
      WFIndex st'.firstByte := by
  intro entries
  induction entries with
  | nil =>
    intro st st' hwf h
    injection h with h
    exact h ▸ hwf
  | cons entry rest ih =>
    intro st st' hwf h
    unfold loadEmojisFrom at h
    cases hp : parseEmoji entry.emoji with
    | error m =>
      rw [hp] at h
      cases h
    | ok e =>
      rw [hp] at h
      simp only [] at h
      have hwf1 : WFIndex (registerBase st e).firstByte := by
        rw [registerBase_firstByte]
        exact wf_bucketAppend hwf (parseEmoji_ok_value hp)
      cases hv : loadVariations e (registerBase st e)
          entry.skin_variations with
      | error m =>
        rw [hv] at h
        cases h
      | ok st2 =>
        rw [hv] at h
        simp only [] at h
        exact ih st2 st' (loadVariations_wf _ _ _ hwf1 hv) h

theorem loadEmojis_wf {entries : List RawEntry} {st : LoadState}
    (h : loadEmojis entries = .ok st) : WFIndex st.firstByte :=
  loadEmojisFrom_wf entries _ st (by intro p hp; cases hp) h

theorem sortEmojis_wf {st : LoadState} (hwf : WFIndex st.firstByte) :
    WFIndex (sortEmojis st).firstByte := by
  intro p hp e he
  unfold sortEmojis at hp
  simp only [] at hp
  obtain ⟨q, hq, rfl⟩ := List.mem_map.mp hp
  exact hwf q hq e ((List.mem_insertionSort lenGE).mp he)

theorem getD_of_lt {l : Str} {n : Nat} (h : n < l.length) :
    l.getD n 0 = l[n] := by
  rw [List.getD_eq_getElem?_getD, List.getElem?_eq_getElem h]
  rfl

theorem bucketFind_wf {idx : FirstByteIndex} (hwf : WFIndex idx) {c : U16}
    {cands : List EmojiData} (hb : bucketFind idx c = some cands) :
    ∀ e ∈ cands, e.value ≠ [] ∧ e.value.headD 0 = c := by
  unfold bucketFind at hb
  cases hq : idx.find? (fun p => p.1 == c) with
  | none =>
    rw [hq] at hb
    cases hb
  | some q =>
    rw [hq] at hb
    injection hb with hb
    intro e he
    have hqmem := List.mem_of_find?_eq_some hq
    have hqc : q.1 = c := by simpa using List.find?_some hq
    have hc2 : cands = q.2 := by simpa using hb.symm
    have := hwf q hqmem e (hc2 ▸ he)
    exact ⟨this.1, hqc ▸ this.2⟩

theorem emojiMatches_slice {text : Str} {i : Nat} {r : EmojiData}
    (hi : i < text.length) (hm : emojiMatches text i r = true)
    (hne : r.value ≠ []) (hhead : r.value.headD 0 = text.getD i 0) :
    i + r.value.length ≤ text.length ∧
    (text.drop i).take r.value.length = r.value := by
  unfold emojiMatches at hm
  by_cases hfit : r.value.length - 1 > text.length - i - 1
  · rw [if_pos hfit] at hm
    cases hm
  · rw [if_neg hfit] at hm
    have hlen : 1 ≤ r.value.length := List.length_pos.mpr hne
    have hfit' : i + r.value.length ≤ text.length := by omega
    refine ⟨hfit', ?_⟩
    have hall : ∀ j < r.value.length,
        text.getD (i + j) 0 = r.value.getD j 0 := by
      intro j hjl
      rcases Nat.eq_zero_or_pos j with rfl | hpos
      · rw [Nat.add_zero, ← hhead]
        cases hv : r.value with
        | nil => exact absurd hv hne
        | cons a t => rfl
      · exact beq_iff_eq.mp
          ((List.all_eq_true.mp hm) j (List.mem_range'_1.mpr ⟨hpos, by omega⟩))
    apply List.ext_getElem
    · simp only [List.length_take, List.length_drop]
      omega
    · intro n h1 h2
      have hn : n < r.value.length := h2
      have hin : i + n < text.length := by omega
      have h3 : ((text.drop i).take r.value.length)[n] = text[i + n] := by
        rw [List.getElem_take, List.getElem_drop]
      rw [h3]
      have h4 := hall n hn
      rw [getD_of_lt hin, getD_of_lt hn] at h4
      exact h4

theorem matchChain_mono {text : Str} {ms : List (Nat × EmojiData)}
    {b b' : Nat} (h : MatchChain text b' ms) (hb : b ≤ b') :
    MatchChain text b ms := by
  cases ms with
  | nil => trivial
  | cons m t =>
    obtain ⟨p, r⟩ := m
    obtain ⟨h1, h2, h3, h4, h5⟩ := h
    exact ⟨Nat.le_trans hb h1, h2, h3, h4, h5⟩

theorem parseMatchesLoop_chain {idx : FirstByteIndex} (hwf : WFIndex idx)
    (text : Str) :
    ∀ (fuel i : Nat), MatchChain text i (parseMatchesLoop idx text fuel i) := by
  intro fuel
  induction fuel with
  | zero =>
    intro i
    trivial
  | succ f ih =>
    intro i
    rw [parseMatchesLoop]
    by_cases hi : i < text.length
    · rw [if_pos hi]
      by_cases hls : isLowSurrogate (text.getD i 0) = true
      · rw [if_pos hls]
        exact matchChain_mono (ih (i + 1)) (by omega)
      · rw [if_neg hls]
        cases hb : bucketFind idx (text.getD i 0) with
        | none =>
          simp only []
          exact matchChain_mono (ih (i + 1)) (by omega)
        | some cands =>
          simp only []
          cases hf : findMatch text i cands with
          | none => exact matchChain_mono (ih (i + 1)) (by omega)
          | some matched =>
            simp only []
            by_cases hz : (matched.value.length == 0) = true
            · rw [if_pos hz]
              exact matchChain_mono (ih (i + 1)) (by omega)
            · rw [if_neg hz]
              have hmem := List.mem_of_find?_eq_some hf
              have hmatch := List.find?_some hf
              have hne : matched.value ≠ [] := by
                intro hv
                apply hz
                rw [hv]
                rfl
              have hhead := (bucketFind_wf hwf hb matched hmem).2
              have hslice := emojiMatches_slice hi hmatch hne hhead
              exact ⟨Nat.le_refl i, hne, hslice.1, hslice.2,
                ih (i + matched.value.length)⟩
    · rw [if_neg hi]
      trivial

theorem segsText_append (a b : List Segment) :
    segsText (a ++ b) = segsText a ++ segsText b :=
  List.flatMap_append a b _

theorem segsText_nil : segsText [] = [] := rfl

theorem segsText_emote (e : EmojiData) (rest : List Segment) :
    segsText (Segment.emote e :: rest) = e.value ++ segsText rest := rfl

theorem segsText_lit (l : Str) (rest : List Segment) :
    segsText (Segment.lit l :: rest) = l ++ segsText rest := rfl

theorem matchChain_render {text : Str} :
    ∀ (ms : List (Nat × EmojiData)) (lastEnd : Nat),
      MatchChain text lastEnd ms → lastEnd ≤ text.length →
      segsText (render text lastEnd ms) = text.drop lastEnd := by
  intro ms
  induction ms with
  | nil =>
    intro lastEnd _ hle
    unfold render
    by_cases h : lastEnd < text.length
    · rw [if_pos h]
      simp [segsText]
    · rw [if_neg h]
      rw [List.drop_of_length_le (by omega)]
      rfl
  | cons m ms ih =>
    obtain ⟨p, r⟩ := m
    intro lastEnd hchain hle
    obtain ⟨h1, h2, h3, h4, h5⟩ := hchain
    unfold render
    rw [segsText_append]
    have hrest : segsText (render text (p + r.value.length) ms) =
        text.drop (p + r.value.length) := ih (p + r.value.length) h5 h3
    have hdropp : text.drop p =
        r.value ++ text.drop (p + r.value.length) := by
      conv_lhs => rw [← List.take_append_drop r.value.length (text.drop p)]
      rw [h4, List.drop_drop]
    by_cases hlt : lastEnd < p
    · rw [if_pos hlt]
      rw [segsText_lit, segsText_nil, List.append_nil, segsText_emote,
        hrest, ← hdropp]
      conv_rhs => rw [← List.take_append_drop (p - lastEnd)
        (text.drop lastEnd)]
      rw [List.drop_drop, show lastEnd + (p - lastEnd) = p by omega]
    · rw [if_neg hlt]
      have hpe : p = lastEnd := by omega
      subst hpe
      rw [segsText_nil, List.nil_append, segsText_emote, hrest, ← hdropp]

/-- C10: scanning loses and reorders nothing — concatenating the segments
of a scan over any index the loader built (literal segments as their text,
emote segments as the matched record's glyph) yields exactly the input
text; in particular empty input gives an empty segment list and emoji-free
input one literal segment. -/
theorem parse_segments_concat (entries : List RawEntry) (text : Str)
    (h : isOkB (loadEmojis entries) = true) :
    segsText (parse (sortEmojis (loadStateD (loadEmojis entries))).firstByte
      text) = text := by
  obtain ⟨st, hst⟩ : ∃ st, loadEmojis entries = .ok st := by
    cases hl : loadEmojis entries with
    | ok st => exact ⟨st, rfl⟩
    | error m =>
      rw [hl] at h
      cases h
  rw [hst]
  have hwf := sortEmojis_wf (loadEmojis_wf hst)
  show segsText (render text 0
    (parseMatchesLoop (sortEmojis st).firstByte text text.length 0)) = text
  rw [matchChain_render _ 0 (parseMatchesLoop_chain hwf text text.length 0)
    (Nat.zero_le _)]
  rfl

/-- C10 witness: the theorem at a concrete one-record dataset and the text
"hi 😄 there". -/
theorem parse_segments_concat_witness :
    segsText (parse
      (sortEmojis (loadStateD (loadEmojis [entrySmile]))).firstByte
      (strU "hi " ++ [0xD83D, 0xDE04] ++ strU " there")) =
      strU "hi " ++ [0xD83D, 0xDE04] ++ strU " there" :=
  parse_segments_concat [entrySmile]
    (strU "hi " ++ [0xD83D, 0xDE04] ++ strU " there") (by decide)

end Emojis
